import Mathlib

/-!
Verification of the benford_py digit-extraction and statistics engine
(src/benford/benford.py) against its natural-language specification.

The Python code is shallowly embedded: integer quantities become `Nat`/`Int`,
exact rational arithmetic becomes `ℚ`, logarithm-valued quantities become `ℝ`
with `Real.logb 10`, the pandas truncation `np.log10(..).astype(int)` on a
positive integer becomes `Nat.log 10` (the exact floor of the base-10
logarithm), and operations that can raise become `Except`-valued functions.
-/

namespace Benford

/-- Error taxonomy for the validation failures modelled here.  The Python
code raises `ValueError` / `TypeError` with distinct messages; the spec names
them InvalidSignFilter, InvalidConfiguration and so on. -/
inductive BenfordError where
  | invalidSignFilter
  | invalidConfig
  | negIntPower
  deriving DecidableEq, Repr

/-! ## Digit extraction (Base.__init__ lines 203-209, Source.first_digits lines 600-604)

The source computes, for a normalized magnitude `ZN` with `ZN >= 10^(digs-1)`,
the column `ZN // 10 ** (int(log10 ZN) - (digs - 1))`.  For a positive integer
argument, `int(np.log10 ZN)` is the floor of the base-10 logarithm, which is
`Nat.log 10 ZN`. -/

/-- Embedding of the extractor `temp.ZN // 10 ** ((np.log10(temp.ZN)).astype(int) - (digs - 1))`
from `Base.__init__` / `Source.first_digits`, for `ZN ≥ 10^(digs-1) ≥ 1` (the rows kept
by the `self.ZN >= 10 ** (digs - 1)` filter). -/
def firstDigitsOf (digs ZN : ℕ) : ℕ :=
  ZN / 10 ^ (Nat.log 10 ZN - (digs - 1))

/-- The first `digs` characters of the decimal-string representation of `ZN`,
read back as an integer.  `Nat.digits 10 ZN` is the little-endian digit list, so
reversing, taking `digs` characters and reversing again keeps the leading
characters of the usual (big-endian) decimal string. -/
def stringFirstDigits (digs ZN : ℕ) : ℕ :=
  Nat.ofDigits 10 (((Nat.digits 10 ZN).reverse.take digs).reverse)

lemma ofDigits_drop (k : ℕ) : ∀ n : ℕ,
    Nat.ofDigits 10 ((Nat.digits 10 n).drop k) = n / 10 ^ k := by
  induction k with
  | zero => intro n; simp [Nat.ofDigits_digits]
  | succ k ih =>
    intro n
    rcases Nat.eq_zero_or_pos n with h0 | hpos
    · subst h0; simp
    · rw [Nat.digits_def' (by norm_num : 1 < 10) hpos]
      simp only [List.drop_succ_cons]
      rw [ih (n / 10), Nat.div_div_eq_div_mul, pow_succ, mul_comm (10 ^ k) 10]

lemma reverse_take_reverse {α : Type} (l : List α) (k : ℕ) :
    (l.reverse.take k).reverse = l.drop (l.length - k) := by
  have h : (l.reverse.take k).reverse = l.reverse.reverse.drop (l.reverse.length - k) :=
    List.reverse_take
  simpa using h

lemma stringFirstDigits_eq_div (digs ZN : ℕ) :
    stringFirstDigits digs ZN = ZN / 10 ^ ((Nat.digits 10 ZN).length - digs) := by
  unfold stringFirstDigits
  rw [reverse_take_reverse, ofDigits_drop]

/-- Core round-trip lemma: for every `digs ≥ 1` and `ZN ≥ 10^(digs-1)`, the
log-and-divide extractor agrees with truncating the decimal string. -/
lemma firstDigitsOf_eq_string (digs ZN : ℕ) (hd : 1 ≤ digs)
    (h : 10 ^ (digs - 1) ≤ ZN) : firstDigitsOf digs ZN = stringFirstDigits digs ZN := by
  have hpow : 0 < 10 ^ (digs - 1) := by positivity
  have hZN : ZN ≠ 0 := by omega
  have hlen : (Nat.digits 10 ZN).length = Nat.log 10 ZN + 1 :=
    Nat.digits_len 10 ZN (by norm_num) hZN
  have hlog : digs - 1 ≤ Nat.log 10 ZN :=
    (Nat.pow_le_iff_le_log (by norm_num) hZN).mp h
  rw [stringFirstDigits_eq_div digs ZN, hlen]
  unfold firstDigitsOf
  have hexp : Nat.log 10 ZN + 1 - digs = Nat.log 10 ZN - (digs - 1) := by omega
  rw [hexp]

lemma log10_100 : Nat.log 10 100 = 2 :=
  Nat.log_eq_of_pow_le_of_lt_pow (by norm_num) (by norm_num)

/-! ## Expected distribution tables (First.__init__ lines 99-109, Second.__init__,
LastTwo.__init__ lines 144-150, _test_) -/

/-- Expected Benford probability for a first-digits bucket `d`:
`np.log10(1 + (1. / Dig))` from `First.__init__`. -/
noncomputable def firstExp (d : ℕ) : ℝ := Real.logb 10 (1 + 1 / (d : ℝ))

/-- Domain of the first-digits tests: `np.arange(10 ** (digs - 1), 10 ** digs)`
from `First.__init__`. -/
def firstDomain (digs : ℕ) : List ℕ :=
  (List.range (10 ^ digs - 10 ^ (digs - 1))).map (fun i => 10 ^ (digs - 1) + i)

/-- The `First` expected-distribution table: index `Dig`, column `Expected`. -/
noncomputable def firstTable (digs : ℕ) : List (ℕ × ℝ) :=
  (firstDomain digs).map (fun d => (d, firstExp d))

/-- Expected Benford probability of second digit `s`: the sum over `a = 1..9`
of `log10(1 + 1/(10a+s))`, i.e. the `groupby('Sec_Dig').sum()` of
`Second.__init__` over `np.arange(10, 100)`. -/
noncomputable def secondExp (s : ℕ) : ℝ :=
  ((List.range 9).map (fun k => Real.logb 10 (1 + 1 / ((10 * (k + 1) + s : ℕ) : ℝ)))).sum

/-- The `Second` expected-distribution table over second digits 0..9. -/
noncomputable def secondTable : List (ℕ × ℝ) :=
  (List.range 10).map (fun s => (s, secondExp s))

/-- The `LastTwo` expected-distribution table: `np.array([1 / 99.] * 100)`
indexed by the 100 two-digit values 0..99 (`_lt_(num=True)`). -/
noncomputable def lastTwoTable : List (ℕ × ℝ) :=
  (List.range 100).map (fun d => (d, 1 / 99))

/-- Dispatch of `_test_(digs)`: keys 1, 2, 3 choose `First`, 22 chooses
`Second`, and anything else (the library uses -2) chooses `LastTwo`. -/
noncomputable def testDF : ℤ → List (ℕ × ℝ)
  | 1 => firstTable 1
  | 2 => firstTable 2
  | 3 => firstTable 3
  | 22 => secondTable
  | _ => lastTwoTable

lemma mem_firstTable_iff (digs : ℕ) (hd : 1 ≤ digs) (d : ℕ) (p : ℝ) :
    (d, p) ∈ firstTable digs ↔
      10 ^ (digs - 1) ≤ d ∧ d < 10 ^ digs ∧ p = Real.logb 10 (1 + 1 / (d : ℝ)) := by
  have hle : 10 ^ (digs - 1) ≤ 10 ^ digs :=
    Nat.pow_le_pow_right (by norm_num) (by omega)
  simp only [firstTable, firstDomain, List.mem_map, List.mem_range]
  constructor
  · rintro ⟨d', ⟨i, hi, rfl⟩, hdp⟩
    obtain ⟨rfl, rfl⟩ := Prod.mk.injEq .. ▸ hdp
    refine ⟨by omega, by omega, rfl⟩
  · rintro ⟨h1, h2, rfl⟩
    exact ⟨d, ⟨d - 10 ^ (digs - 1), by omega, by omega⟩, rfl⟩

/-- C3 — the expected-distribution generator: the first-digits family assigns
probability `log10(1 + 1/d)` to exactly the integers of its domain
(`10^(digs-1) ≤ d < 10^digs`, i.e. 1-9, 10-99, 100-999), and the Last Two
Digits table consists of 100 buckets each carrying the constant `1/99`, so
that it sums to `100/99` rather than 1.  None of the tables takes the sample
as an argument. -/
theorem c3_expected_tables :
    (∀ digs ∈ ([1, 2, 3] : List ℕ), ∀ (d : ℕ) (p : ℝ),
      ((d, p) ∈ firstTable digs ↔
        10 ^ (digs - 1) ≤ d ∧ d < 10 ^ digs ∧ p = Real.logb 10 (1 + 1 / (d : ℝ))))
    ∧ (∀ q ∈ lastTwoTable, q.2 = 1 / 99)
    ∧ lastTwoTable.length = 100
    ∧ (lastTwoTable.map Prod.snd).sum = 100 / 99 := by
  refine ⟨?_, ?_, ?_, ?_⟩
  · intro digs hdigs d p
    have hd : 1 ≤ digs := by
      simp only [List.mem_cons, List.not_mem_nil, or_false] at hdigs
      rcases hdigs with rfl | rfl | rfl <;> norm_num
    exact mem_firstTable_iff digs hd d p
  · rintro ⟨d, p⟩ hq
    simp only [lastTwoTable, List.mem_map, List.mem_range] at hq
    obtain ⟨i, _, hi⟩ := hq
    obtain ⟨rfl, rfl⟩ := Prod.mk.injEq .. ▸ hi
    rfl
  · simp [lastTwoTable]
  · have hmap : lastTwoTable.map Prod.snd = List.replicate 100 ((1 : ℝ) / 99) := by
      simp [lastTwoTable, List.map_map, Function.comp_def, List.map_const]
    rw [hmap, List.sum_replicate, nsmul_eq_mul]
    norm_num

/-- Witness for C3: the first-digit bucket 1 appears in the F1D table with the
Benford probability of digit 1. -/
theorem c3_expected_tables_witness :
    ((1 : ℕ), Real.logb 10 (1 + 1 / ((1 : ℕ) : ℝ))) ∈ firstTable 1 :=
  (c3_expected_tables.1 1 (by decide) 1 _).mpr ⟨by norm_num, by norm_num, rfl⟩

/-- C1 — the first-N-digits extractor `ZN // 10^(int(log10 ZN) - (N-1))` equals
the integer formed by the first N characters of the decimal string of `ZN`
whenever `ZN ≥ 10^(N-1)`, for N in 1, 2, 3, and in particular at the power of
ten `ZN = 100` it gives F1D = 1, F2D = 10, F3D = 100. -/
theorem c1_digit_extraction_round_trip :
    (∀ digs ∈ ([1, 2, 3] : List ℕ), ∀ ZN : ℕ, 10 ^ (digs - 1) ≤ ZN →
      firstDigitsOf digs ZN = stringFirstDigits digs ZN)
    ∧ firstDigitsOf 1 100 = 1 ∧ firstDigitsOf 2 100 = 10 ∧ firstDigitsOf 3 100 = 100 := by
  refine ⟨?_, ?_, ?_, ?_⟩
  · intro digs hdigs ZN h
    have hd : 1 ≤ digs := by
      simp only [List.mem_cons, List.not_mem_nil, or_false] at hdigs
      rcases hdigs with rfl | rfl | rfl <;> norm_num
    exact firstDigitsOf_eq_string digs ZN hd h
  · unfold firstDigitsOf; rw [log10_100]; norm_num
  · unfold firstDigitsOf; rw [log10_100]; norm_num
  · unfold firstDigitsOf; rw [log10_100]; norm_num

/-- Witness for C1: the round-trip equality applied at the concrete input
`digs = 2`, `ZN = 987`. -/
theorem c1_digit_extraction_round_trip_witness :
    firstDigitsOf 2 987 = stringFirstDigits 2 987 :=
  c1_digit_extraction_round_trip.1 2 (by decide) 987 (by norm_num)

/-! ## Mantissas (_getMantissas_ lines 1239-1246, Mantissas.__init__ lines 906-918)

The source computes `log_a = np.abs(np.log10(arr)); return log_a - log_a.astype(int)`
on the array `arr` of absolute values of the (nonzero) entries.  Because
`log_a` is non-negative, the toward-zero truncation `astype(int)` is the
floor, so the result is the fractional part of the absolute value of the
base-10 logarithm. -/

/-- Embedding of `_getMantissas_` applied to one absolute value `a`. -/
noncomputable def getMantissas (a : ℝ) : ℝ :=
  |Real.logb 10 a| - ↑⌊|Real.logb 10 a|⌋

lemma logb_ten_two_pos : 0 < Real.logb 10 2 :=
  Real.logb_pos (by norm_num) (by norm_num)

lemma logb_ten_two_lt_half : Real.logb 10 2 < 1 / 2 := by
  have h4 : Real.logb 10 4 < Real.logb 10 10 :=
    Real.logb_lt_logb (by norm_num) (by norm_num) (by norm_num)
  rw [Real.logb_self_eq_one (by norm_num)] at h4
  have hpow : Real.logb 10 ((2 : ℝ) ^ (2 : ℕ)) = 2 * Real.logb 10 2 := by
    rw [Real.logb_pow]; norm_num
  have h42 : ((4 : ℝ)) = (2 : ℝ) ^ (2 : ℕ) := by norm_num
  rw [h42, hpow] at h4
  linarith

lemma fract_logb_two : Int.fract (Real.logb 10 2) = Real.logb 10 2 :=
  Int.fract_eq_self.mpr ⟨le_of_lt logb_ten_two_pos, by linarith [logb_ten_two_lt_half]⟩

lemma logb_half : Real.logb 10 ((1 : ℝ) / 2) = -Real.logb 10 2 := by
  rw [show ((1 : ℝ) / 2) = 2⁻¹ by norm_num, Real.logb_inv]

lemma fract_logb_half : Int.fract (Real.logb 10 ((1 : ℝ) / 2)) = 1 - Real.logb 10 2 := by
  rw [logb_half, Int.fract_neg (by rw [fract_logb_two]; exact ne_of_gt logb_ten_two_pos),
    fract_logb_two]

/-- Counterexample to C2: at the entry `x = 1/2` the computed mantissa is
`log10 2 ≈ 0.301`, whereas `log10(1/2) mod 1 = 1 - log10 2 ≈ 0.699`; the code
returns the fractional part of `|log10|x||`, not `log10|x| mod 1`. -/
theorem c2_mantissa_counterexample :
    getMantissas |(1 / 2 : ℝ)| ≠ Int.fract (Real.logb 10 |(1 / 2 : ℝ)|) := by
  have habs : |(1 / 2 : ℝ)| = 1 / 2 := abs_of_pos (by norm_num)
  rw [habs, fract_logb_half]
  unfold getMantissas
  rw [logb_half, abs_neg, abs_of_pos logb_ten_two_pos]
  have hfr : Real.logb 10 2 - ↑⌊Real.logb 10 2⌋ = Int.fract (Real.logb 10 2) := rfl
  rw [hfr, fract_logb_two]
  intro heq
  have := logb_ten_two_lt_half
  linarith

/-- C2 amended — the mantissa computed by `_getMantissas_` on the absolute
value `|x|` of a nonzero entry equals `log10|x| mod 1` whenever `|x| ≥ 1`, but
for `0 < |x| < 1` (with `log10|x|` not an integer) it equals
`1 - (log10|x| mod 1)`: the code takes the fractional part of `|log10|x||`. -/
theorem c2_mantissa_amended : ∀ x : ℝ, x ≠ 0 →
    (1 ≤ |x| → getMantissas |x| = Int.fract (Real.logb 10 |x|))
    ∧ (|x| < 1 → Int.fract (Real.logb 10 |x|) ≠ 0 →
        getMantissas |x| = 1 - Int.fract (Real.logb 10 |x|)) := by
  intro x hx
  constructor
  · intro h1
    have h0 : 0 ≤ Real.logb 10 |x| := Real.logb_nonneg (by norm_num) h1
    unfold getMantissas
    rw [abs_of_nonneg h0]
    rfl
  · intro hlt hfr
    have hpos : 0 < |x| := abs_pos.mpr hx
    have hneg : Real.logb 10 |x| < 0 := Real.logb_neg (by norm_num) hpos hlt
    unfold getMantissas
    rw [abs_of_neg hneg]
    have h2 : -Real.logb 10 |x| - ↑⌊-Real.logb 10 |x|⌋ = Int.fract (-Real.logb 10 |x|) := rfl
    rw [h2, Int.fract_neg hfr]

/-- Witness for the amended C2 at the concrete entries `x = 10` and `x = 1/2`. -/
theorem c2_mantissa_amended_witness :
    getMantissas |(10 : ℝ)| = Int.fract (Real.logb 10 |(10 : ℝ)|)
    ∧ getMantissas |(1 / 2 : ℝ)| = 1 - Int.fract (Real.logb 10 |(1 / 2 : ℝ)|) := by
  constructor
  · exact (c2_mantissa_amended 10 (by norm_num)).1
      (by rw [abs_of_pos (by norm_num : (0 : ℝ) < 10)]; norm_num)
  · refine (c2_mantissa_amended (1 / 2) (by norm_num)).2
      (by rw [abs_of_pos (by norm_num : (0 : ℝ) < 1 / 2)]; norm_num) ?_
    rw [abs_of_pos (by norm_num : (0 : ℝ) < 1 / 2), fract_logb_half]
    have := logb_ten_two_lt_half
    intro heq
    linarith

/-! ## Effective sample size (_set_N_ lines 1377-1387)

The Python function receives `limit_N` which may be `None`, an `int`, or any
other numeric object (e.g. a `float`).  We model that value as
`Option PyNum` where `PyNum` distinguishes Python ints from floats, the
latter carried as an exact rational. -/

/-- A Python numeric value as received by `_set_N_`: either an `int` or a
non-`int` number (a `float`, carried exactly as a rational). -/
inductive PyNum where
  | int (n : ℤ)
  | float (q : ℚ)
  deriving DecidableEq, Repr

/-- Numeric value of a `PyNum`. -/
def PyNum.val : PyNum → ℚ
  | .int n => (n : ℚ)
  | .float q => q

/-- Truth value of the Python test `isinstance(limit_N, int)`. -/
def PyNum.isInt : PyNum → Bool
  | .int _ => true
  | .float _ => false

/-- Embedding of `_set_N_(len_df, limit_N)`: return `len_df` when the cap is
`None` or greater than `len_df`; otherwise raise unless the cap is a
non-negative `int`, in which case return it. -/
def set_N (len_df : ℕ) : Option PyNum → Except BenfordError ℕ
  | none => .ok len_df
  | some v =>
    if (len_df : ℚ) < v.val then .ok len_df
    else if v.val < 0 ∨ v.isInt = false then .error .invalidConfig
    else .ok v.val.num.toNat

/-- Counterexample to C5: the non-integer cap `limit_N = 15/2` on a sample of
length 3 is accepted without any validation (the code returns the sample
length whenever `limit_N > len_df`, before the type check), contradicting the
claim that a non-integer cap always fails. -/
theorem c5_set_N_counterexample :
    (PyNum.float (15 / 2)).isInt = false
    ∧ set_N 3 (some (.float (15 / 2))) = .ok 3 := by
  constructor
  · rfl
  · simp only [set_N]
    rw [if_pos (by norm_num [PyNum.val])]

/-- C5 amended — `_set_N_` behaviour: a `None` cap and any cap strictly
greater than the sample length yield the sample length with no validation at
all; a non-negative integer cap yields the minimum of cap and sample length;
a negative cap always fails with the invalid-configuration error; and a
non-integer cap fails only when it does not exceed the sample length. -/
theorem c5_set_N_amended : ∀ (len_df : ℕ) (v : PyNum),
    set_N len_df none = .ok len_df
    ∧ (∀ n : ℤ, 0 ≤ n → set_N len_df (some (.int n)) = .ok (min len_df n.toNat))
    ∧ (v.val < 0 → set_N len_df (some v) = .error .invalidConfig)
    ∧ (v.isInt = false → v.val ≤ (len_df : ℚ) →
        set_N len_df (some v) = .error .invalidConfig)
    ∧ ((len_df : ℚ) < v.val → set_N len_df (some v) = .ok len_df) := by
  intro len_df v
  refine ⟨rfl, ?_, ?_, ?_, ?_⟩
  · intro n hn
    simp only [set_N, PyNum.val, PyNum.isInt]
    by_cases hlt : (len_df : ℚ) < (n : ℚ)
    · rw [if_pos hlt]
      have hlen : (len_df : ℤ) < n := by exact_mod_cast hlt
      have : min len_df n.toNat = len_df := by omega
      rw [this]
    · rw [if_neg hlt, if_neg (by push_neg; exact ⟨by exact_mod_cast hn, by simp⟩)]
      have hle : n ≤ (len_df : ℤ) := by
        have := not_lt.mp hlt
        exact_mod_cast this
      have hnum : ((n : ℚ)).num.toNat = n.toNat := by
        norm_num
      rw [hnum]
      have : min len_df n.toNat = n.toNat := by omega
      rw [this]
  · intro hv
    simp only [set_N]
    rw [if_neg (not_lt.mpr (le_trans (le_of_lt hv) (by positivity))),
      if_pos (Or.inl hv)]
  · intro hint hle
    simp only [set_N]
    rw [if_neg (not_lt.mpr hle), if_pos (Or.inr hint)]
  · intro hgt
    simp only [set_N]
    rw [if_pos hgt]

/-- Witness for the amended C5 at concrete inputs: no cap, an integer cap of
2 on a sample of length 5, a negative cap, a small non-integer cap, and a
large non-integer cap. -/
theorem c5_set_N_amended_witness :
    set_N 5 none = .ok 5
    ∧ set_N 5 (some (.int 2)) = .ok (min 5 (2 : ℤ).toNat)
    ∧ set_N 5 (some (.int (-1))) = .error .invalidConfig
    ∧ set_N 5 (some (.float (5 / 2))) = .error .invalidConfig
    ∧ set_N 5 (some (.float (11 / 2))) = .ok 5 :=
  ⟨(c5_set_N_amended 5 (.int 0)).1,
   (c5_set_N_amended 5 (.int 0)).2.1 2 (by norm_num),
   (c5_set_N_amended 5 (.int (-1))).2.2.1 (by norm_num [PyNum.val]),
   (c5_set_N_amended 5 (.float (5 / 2))).2.2.2.1 rfl (by norm_num [PyNum.val]),
   (c5_set_N_amended 5 (.float (11 / 2))).2.2.2.2 (by norm_num [PyNum.val])⟩

/-! ## Sign filters (Source.__init__ lines 468-486, Base.__init__ lines 171-186)

`Source.__init__` validates the `sign` argument up front and raises for any
value outside all/pos/neg; `Base.__init__` has no such check: it tests for
`'all'`, then `'pos'`, and treats every other value as the negative filter. -/

/-- Embedding of the sign handling of `Base.__init__`: no validation; the
final `else` branch keeps the negative entries. -/
def baseSignFilter (sign : String) (xs : List ℚ) : List ℚ :=
  if sign = "all" then xs.filter (fun x => x ≠ 0)
  else if sign = "pos" then xs.filter (fun x => 0 < x)
  else xs.filter (fun x => x < 0)

/-- Embedding of the sign handling of `Source.__init__`: raise unless `sign`
is all, pos or neg, then filter. -/
def sourceSignFilter (sign : String) (xs : List ℚ) : Except BenfordError (List ℚ) :=
  if ¬(sign = "all" ∨ sign = "pos" ∨ sign = "neg") then .error .invalidSignFilter
  else .ok (if sign = "pos" then xs.filter (fun x => 0 < x)
    else if sign = "neg" then xs.filter (fun x => x < 0)
    else xs.filter (fun x => x ≠ 0))

/-- Counterexample to C6: on the invalid sign value `"invalid"`, the `Source`
entry point raises, but the `Base` entry point (used by the `Benford`
analysis object) silently applies the negative filter and returns data
instead of failing. -/
theorem c6_sign_filter_counterexample :
    sourceSignFilter "invalid" [1, -2] = .error .invalidSignFilter
    ∧ baseSignFilter "invalid" [1, -2] = [-2] := by
  constructor
  · rfl
  · rfl

/-- C6 amended — for every sign value outside all/pos/neg, `Source.__init__`
fails with the invalid-sign-filter error, while `Base.__init__` performs no
validation and silently coerces the invalid value to the negative filter. -/
theorem c6_sign_filter_amended : ∀ (sign : String) (xs : List ℚ),
    sign ≠ "all" → sign ≠ "pos" → sign ≠ "neg" →
    sourceSignFilter sign xs = .error .invalidSignFilter
    ∧ baseSignFilter sign xs = xs.filter (fun x => x < 0) := by
  intro sign xs h1 h2 h3
  constructor
  · unfold sourceSignFilter
    rw [if_pos]
    push_neg
    exact ⟨h1, h2, h3⟩
  · unfold baseSignFilter
    rw [if_neg h1, if_neg h2]

/-- Witness for the amended C6 at the concrete sign value `"xyz"`. -/
theorem c6_sign_filter_amended_witness :
    sourceSignFilter "xyz" [1, -2] = .error .invalidSignFilter
    ∧ baseSignFilter "xyz" [1, -2] = List.filter (fun x => decide (x < 0)) [1, -2] :=
  c6_sign_filter_amended "xyz" [1, -2] (by decide) (by decide) (by decide)

/-! ## Second-order transform (_subtract_sorted_ lines 2114-2123, Benford.sec_order
lines 367-392)

`_subtract_sorted_` sorts the sequence, subtracts each element from its
successor (`sec - sec.shift(1)`, whose leading NaN is dropped by the later
`dropna`), and keeps the nonzero differences.  `Benford.sec_order` then
builds an ordinary `Base` from that difference sequence and runs the usual
`Test` battery on it. -/

/-- The sample sorted ascending (`sec.sort_values()`). -/
def sortedSeq (data : List ℚ) : List ℚ := data.insertionSort (· ≤ ·)

/-- Successive differences `x[i] - x[i-1]` of the sorted sample
(`sec - sec.shift(1)` without its leading NaN). -/
def sortedDiffs (data : List ℚ) : List ℚ :=
  ((sortedSeq data).zip (sortedSeq data).tail).map (fun p => p.2 - p.1)

/-- Embedding of `_subtract_sorted_`: the nonzero successive differences of
the sorted sample (`sec = sec.loc[sec != 0]`). -/
def subtractSorted (data : List ℚ) : List ℚ :=
  (sortedDiffs data).filter (fun d => d ≠ 0)

/-- Data preparation performed by `Benford.sec_order`: an ordinary `Base`
(here its sign-filter stage) built over the difference sequence, on which the
ordinary `Test` objects are then constructed. -/
def secOrderPrepared (sign : String) (data : List ℚ) : List ℚ :=
  baseSignFilter sign (subtractSorted data)

lemma zip_tail_le {l : List ℚ} (h : l.Sorted (· ≤ ·)) :
    ∀ p ∈ l.zip l.tail, p.1 ≤ p.2 := by
  induction l with
  | nil => simp
  | cons a t ih =>
    cases t with
    | nil => simp
    | cons b t' =>
      rw [List.sorted_cons] at h
      intro p hp
      rcases List.mem_cons.mp hp with rfl | hp'
      · exact h.1 b (List.mem_cons_self b t')
      · exact ih h.2 p hp'

/-- C8 — the second-order transform sorts the sample ascending, forms the
successive differences `x[i] - x[i-1]`, and discards exactly the zero
differences (hence every kept difference is strictly positive); the
second-order battery is the ordinary data preparation and digit tests
applied to this difference sequence. -/
theorem c8_second_order : ∀ data : List ℚ,
    subtractSorted data = (sortedDiffs data).filter (fun d => d ≠ 0)
    ∧ (∀ y ∈ subtractSorted data, 0 < y)
    ∧ (∀ sign : String, secOrderPrepared sign data = baseSignFilter sign (subtractSorted data)) := by
  intro data
  refine ⟨rfl, ?_, fun _ => rfl⟩
  intro y hy
  unfold subtractSorted at hy
  have hmem := List.mem_filter.mp hy
  obtain ⟨p, hp, rfl⟩ := List.mem_map.mp hmem.1
  have hle : p.1 ≤ p.2 :=
    zip_tail_le (List.sorted_insertionSort (· ≤ ·) data) p hp
  have hne : p.2 - p.1 ≠ 0 := by simpa using hmem.2
  have : p.1 < p.2 := lt_of_le_of_ne hle (fun h => hne (by rw [h, sub_self]))
  linarith

/-- Witness for C8: on the concrete sample `[3, 1, 3]` the transform keeps
the single nonzero difference 2, which is strictly positive. -/
theorem c8_second_order_witness :
    (2 : ℚ) ∈ subtractSorted [3, 1, 3] ∧ 0 < (2 : ℚ) := by
  have hmem : (2 : ℚ) ∈ subtractSorted [3, 1, 3] := by
    have h1 : sortedSeq [3, 1, 3] = [1, 3, 3] := by decide
    unfold subtractSorted sortedDiffs
    rw [h1]
    norm_num
  exact ⟨hmem, (c8_second_order [3, 1, 3]).2.1 2 hmem⟩

/-! ## Summation test (Summ.__init__ lines 274-282, Source.summation lines 828-844,
mad_summ lines 1807-1817)

`Summ.__init__` takes the absolute value of the whole `Base` frame, groups on
the digit-feature column, sums the `Seq` column per group, divides by the
grand total, and subtracts `1 / len(self)` where `len(self)` is the number of
groups observed in the sample.  The module-level `mad_summ` filters to
`ZN >= 10^(test-1)`, groups on the extracted digits, and subtracts the
uniform `1 / (9 * 10^(test-1))` from each share of the `ZN` sums. -/

/-- Rows of a `Base` as (digit-feature, original value) pairs. -/
abbrev SummRows := List (ℤ × ℚ)

/-- The index of `base.abs().groupby(test)`: the distinct absolute
digit-feature values, in ascending order. -/
def summGroups (rows : SummRows) : List ℤ :=
  ((rows.map (fun r => |r.1|)).dedup).insertionSort (· ≤ ·)

/-- Per-group sum of the absolute original values (`groupby(test)[['Seq']].sum()`
on the abs frame). -/
def summSum (rows : SummRows) (g : ℤ) : ℚ :=
  ((rows.filter (fun r => |r.1| = g)).map (fun r => |r.2|)).sum

/-- Grand total `self.Seq.sum()` of the abs frame. -/
def summTotal (rows : SummRows) : ℚ := (rows.map (fun r => |r.2|)).sum

/-- The `AbsDif` column of `Summ.__init__`:
`np.absolute(self.Percent - 1 / len(self))`. -/
def summAbsDif (rows : SummRows) (g : ℤ) : ℚ :=
  |summSum rows g / summTotal rows - 1 / ((summGroups rows).length : ℚ)|

/-- Rows kept by `mad_summ` for test `digs`: `start.loc[start.ZN >= 10 ** (test - 1)]`. -/
def madSummPrepared (zns : List ℕ) (digs : ℕ) : List ℕ :=
  zns.filter (fun z => 10 ^ (digs - 1) ≤ z)

/-- Per-group absolute deviation of `mad_summ`:
`np.absolute(df.ZN / df.ZN.sum() - li)` with `li = 1. / (9 * (10 ** (test - 1)))`,
where the sums are sums of the normalized magnitudes `ZN`. -/
def madSummAbsDif (zns : List ℕ) (digs : ℕ) (g : ℕ) : ℚ :=
  |(((madSummPrepared zns digs).filter (fun z => firstDigitsOf digs z = g)).map
      (fun z => (z : ℚ))).sum /
    ((madSummPrepared zns digs).map (fun z => (z : ℚ))).sum
    - 1 / (9 * 10 ^ (digs - 1) : ℚ)|

/-- Counterexample to C7: for the sample `[1, 2]` (first-digit features 1 and
2, only two groups observed) the `Summ` table compares the share 1/3 of group
1 against `1/2` (one over the number of observed groups), not against the
uniform expectation `1/9` the claim prescribes. -/
theorem c7_summation_counterexample :
    summAbsDif [(1, 1), (2, 2)] 1 = |(1 : ℚ) / 3 - 1 / 2|
    ∧ summAbsDif [(1, 1), (2, 2)] 1 ≠ |(1 : ℚ) / 3 - 1 / (9 * 10 ^ (1 - 1))| := by
  have hg : summGroups [(1, 1), (2, 2)] = [1, 2] := by decide
  have hval : summAbsDif [(1, 1), (2, 2)] 1 = |(1 : ℚ) / 3 - 1 / 2| := by
    unfold summAbsDif
    rw [hg]
    norm_num [summSum, summTotal]
  refine ⟨hval, ?_⟩
  rw [hval]
  rw [show |(1 : ℚ) / 3 - 1 / 2| = 1 / 6 by rw [abs_of_nonpos (by norm_num)]; norm_num,
    show |(1 : ℚ) / 3 - 1 / (9 * 10 ^ (1 - 1))| = 2 / 9 by
      rw [abs_of_nonneg (by norm_num)]; norm_num]
  norm_num

/-- C7 amended — the summation test groups entries by their first-N-digit
feature and computes each group share of the total of absolute values; the
`Summ` class compares every share against `1/(number of observed groups)`,
which coincides with the uniform expectation `1/(9*10^(N-1))` exactly when
every digit group occurs in the sample; the module-level `mad_summ` always
uses the uniform `1/(9*10^(N-1))` but sums the normalized magnitudes `ZN`
rather than the original values. -/
theorem c7_summation_amended : ∀ (rows : SummRows) (digs : ℕ) (g : ℤ),
    summAbsDif rows g = |summSum rows g / summTotal rows - 1 / ((summGroups rows).length : ℚ)|
    ∧ ((summGroups rows).length = 9 * 10 ^ (digs - 1) →
        summAbsDif rows g = |summSum rows g / summTotal rows - 1 / (9 * 10 ^ (digs - 1) : ℚ)|)
    ∧ (∀ (zns : List ℕ) (g' : ℕ),
        madSummAbsDif zns digs g' =
          |(((madSummPrepared zns digs).filter (fun z => firstDigitsOf digs z = g')).map
              (fun z => (z : ℚ))).sum /
            ((madSummPrepared zns digs).map (fun z => (z : ℚ))).sum
            - 1 / (9 * 10 ^ (digs - 1) : ℚ)|) := by
  intro rows digs g
  refine ⟨rfl, ?_, fun _ _ => rfl⟩
  intro hcov
  unfold summAbsDif
  rw [hcov]
  push_cast
  ring_nf

/-- Witness for the amended C7: on a sample realizing all nine first digits
exactly once with value 1, the observed group count is 9 and the `Summ`
deviation of group 1 is measured against the uniform `1/9`. -/
theorem c7_summation_amended_witness :
    summAbsDif [(1, 1), (2, 1), (3, 1), (4, 1), (5, 1), (6, 1), (7, 1), (8, 1), (9, 1)] 1 =
      |summSum [(1, 1), (2, 1), (3, 1), (4, 1), (5, 1), (6, 1), (7, 1), (8, 1), (9, 1)] 1 /
        summTotal [(1, 1), (2, 1), (3, 1), (4, 1), (5, 1), (6, 1), (7, 1), (8, 1), (9, 1)]
        - 1 / (9 * 10 ^ (1 - 1) : ℚ)| :=
  (c7_summation_amended [(1, 1), (2, 1), (3, 1), (4, 1), (5, 1), (6, 1), (7, 1), (8, 1), (9, 1)]
    1 1).2.1 (by decide)


/-! ## Digit-test result tables (Test.__init__ lines 243-259, _prep_ lines 1425-1450,
_Z_score lines 1083-1092)

`Test.__init__` starts from the expected table `_test_(digs)` over the full
digit domain, joins the `value_counts()` of the feature column into it (index
alignment), fills the missing entries with 0, adds
`AbsDif = |Found - Expected|` and `Z_score = _Z_score(self, N)`.  `_prep_`
builds the same join (`_test_(digs).join(dd).fillna(0)`). -/

/-- One row of a digit-test result table. -/
structure TestRow where
  dig : ℕ
  expected : ℝ
  counts : ℕ
  found : ℝ
  absDif : ℝ
  z : ℝ
  deriving Inhabited

/-- Embedding of `_Z_score(frame, N)`:
`(frame.AbsDif - (1 / (2 * N))) / np.sqrt((frame.Expected * (1. - frame.Expected)) / N)`. -/
noncomputable def z_score (absDif expected : ℝ) (N : ℕ) : ℝ :=
  (absDif - 1 / (2 * (N : ℝ))) / Real.sqrt (expected * (1 - expected) / (N : ℝ))

/-- The `value_counts()` of a feature column: each distinct value with its
number of occurrences. -/
def valueCounts (data : List ℕ) : List (ℕ × ℕ) :=
  data.dedup.map (fun v => (v, data.count v))

/-- Index-aligned join of the counts into an expected-table row, with
`fillna(0)`: missing digits get count 0. -/
def lookupCount (vc : List (ℕ × ℕ)) (d : ℕ) : ℕ := (vc.lookup d).getD 0

/-- Embedding of the table built by `Test.__init__` / `_prep_`: one row per
expected-table entry, carrying Counts (joined `value_counts`, 0 when absent),
Found (`value_counts(normalize=True)`, i.e. count divided by the length of
the feature column), AbsDif and the Z score computed from the effective
sample size `N`. -/
noncomputable def testRows (t : ℤ) (data : List ℕ) (N : ℕ) : List TestRow :=
  (testDF t).map (fun p =>
    let c := lookupCount (valueCounts data) p.1
    let f : ℝ := (c : ℝ) / (data.length : ℝ)
    { dig := p.1, expected := p.2, counts := c, found := f,
      absDif := |f - p.2|, z := z_score |f - p.2| p.2 N })

lemma lookup_map_self (l : List ℕ) (f : ℕ → ℕ) (d : ℕ) :
    (l.map (fun v => (v, f v))).lookup d = if d ∈ l then some (f d) else none := by
  induction l with
  | nil => simp
  | cons a t ih =>
    by_cases h : d = a
    · subst h
      simp [List.lookup]
    · have hne : (d == a) = false := beq_false_of_ne h
      simp [List.lookup, hne, ih, h]

lemma lookupCount_eq_count (data : List ℕ) (d : ℕ) :
    lookupCount (valueCounts data) d = data.count d := by
  unfold lookupCount valueCounts
  rw [lookup_map_self]
  by_cases h : d ∈ data.dedup
  · simp [h]
  · have hd : d ∉ data := fun hm => h (List.mem_dedup.mpr hm)
    simp [h, List.count_eq_zero.mpr hd]

lemma firstExp_nonneg (d : ℕ) : 0 ≤ firstExp d := by
  unfold firstExp
  apply Real.logb_nonneg (by norm_num)
  have : (0 : ℝ) ≤ 1 / (d : ℝ) := by positivity
  linarith

lemma firstExp_le_one (d : ℕ) (hd : 1 ≤ d) : firstExp d ≤ 1 := by
  unfold firstExp
  have hd1 : (1 : ℝ) ≤ (d : ℝ) := by exact_mod_cast hd
  have hinv : 1 / (d : ℝ) ≤ 1 := by
    rw [div_le_one (by linarith)]
    linarith
  have h2 : Real.logb 10 (1 + 1 / (d : ℝ)) ≤ Real.logb 10 10 :=
    Real.logb_le_logb_of_le (by norm_num) (by positivity) (by linarith)
  rw [Real.logb_self_eq_one (by norm_num)] at h2
  exact h2

lemma testDF_one : testDF 1 = firstTable 1 := rfl

lemma testDF_two : testDF 2 = firstTable 2 := rfl

lemma testDF_three : testDF 3 = firstTable 3 := rfl

lemma testDF_twentytwo : testDF 22 = secondTable := rfl

lemma testDF_neg_two : testDF (-2) = lastTwoTable := rfl

lemma firstTable_expected_nonneg (digs : ℕ) : ∀ p ∈ firstTable digs, 0 ≤ p.2 := by
  rintro ⟨d, p⟩ hp
  simp only [firstTable, List.mem_map] at hp
  obtain ⟨d', _, hd'⟩ := hp
  obtain ⟨rfl, rfl⟩ := Prod.mk.injEq .. ▸ hd'
  exact firstExp_nonneg d'

lemma secondTable_expected_nonneg : ∀ p ∈ secondTable, 0 ≤ p.2 := by
  rintro ⟨s, p⟩ hp
  simp only [secondTable, List.mem_map, List.mem_range] at hp
  obtain ⟨s', _, hs'⟩ := hp
  obtain ⟨rfl, rfl⟩ := Prod.mk.injEq .. ▸ hs'
  unfold secondExp
  apply List.sum_nonneg
  intro x hx
  simp only [List.mem_map, List.mem_range] at hx
  obtain ⟨k, _, rfl⟩ := hx
  apply Real.logb_nonneg (by norm_num)
  have : (0 : ℝ) ≤ 1 / ((10 * (k + 1) + s' : ℕ) : ℝ) := by positivity
  linarith

lemma lastTwoTable_expected_nonneg : ∀ p ∈ lastTwoTable, 0 ≤ p.2 := by
  rintro ⟨d, p⟩ hp
  simp only [lastTwoTable, List.mem_map, List.mem_range] at hp
  obtain ⟨d', _, hd'⟩ := hp
  obtain ⟨rfl, rfl⟩ := Prod.mk.injEq .. ▸ hd'
  norm_num

lemma testDF_expected_nonneg (t : ℤ) (ht : t ∈ ([1, 2, 3, 22, -2] : List ℤ)) :
    ∀ p ∈ testDF t, 0 ≤ p.2 := by
  simp only [List.mem_cons, List.not_mem_nil, or_false] at ht
  rcases ht with rfl | rfl | rfl | rfl | rfl
  · exact firstTable_expected_nonneg 1
  · exact firstTable_expected_nonneg 2
  · exact firstTable_expected_nonneg 3
  · exact secondTable_expected_nonneg
  · exact lastTwoTable_expected_nonneg

lemma sorted_firstDomain (digs : ℕ) : List.Sorted (· < ·) (firstDomain digs) := by
  unfold firstDomain
  exact (List.pairwise_lt_range _).map _ (fun h => by omega)

lemma map_fst_testDF (t : ℤ) (ht : t ∈ ([1, 2, 3, 22, -2] : List ℤ)) :
    List.Sorted (· < ·) ((testDF t).map Prod.fst) := by
  simp only [List.mem_cons, List.not_mem_nil, or_false] at ht
  have hfirst : ∀ digs, (firstTable digs).map Prod.fst = firstDomain digs := by
    intro digs
    simp [firstTable, List.map_map, Function.comp_def]
  rcases ht with rfl | rfl | rfl | rfl | rfl
  · rw [testDF_one, hfirst]; exact sorted_firstDomain 1
  · rw [testDF_two, hfirst]; exact sorted_firstDomain 2
  · rw [testDF_three, hfirst]; exact sorted_firstDomain 3
  · rw [testDF_twentytwo]
    have : secondTable.map Prod.fst = List.range 10 := by
      simp [secondTable, List.map_map, Function.comp_def]
    rw [this]
    exact List.pairwise_lt_range _
  · rw [testDF_neg_two]
    have : lastTwoTable.map Prod.fst = List.range 100 := by
      simp [lastTwoTable, List.map_map, Function.comp_def]
    rw [this]
    exact List.pairwise_lt_range _

/-- C4 — in every digit-test result table, every bucket's Z score equals
`(|Found - Expected| - 1/(2N)) / sqrt(Expected (1 - Expected) / N)` with `N`
the effective sample size, and negative values are stored as they are: in the
Last Two Digits table of the singleton sample `[0]` with `N = 1` some bucket
carries a strictly negative Z score. -/
theorem c4_z_score :
    (∀ (t : ℤ) (data : List ℕ) (N : ℕ), ∀ row ∈ testRows t data N,
      row.z = (|row.found - row.expected| - 1 / (2 * (N : ℝ))) /
        Real.sqrt (row.expected * (1 - row.expected) / (N : ℝ)))
    ∧ (∃ row ∈ testRows (-2) [0] 1, row.z < 0) := by
  constructor
  · intro t data N row hrow
    obtain ⟨p, hp, rfl⟩ := List.mem_map.mp hrow
    rfl
  · have hmem : ((1 : ℕ), (1 / 99 : ℝ)) ∈ testDF (-2) := by
      rw [testDF_neg_two]
      simp only [lastTwoTable, List.mem_map, List.mem_range]
      exact ⟨1, by norm_num, rfl⟩
    refine ⟨_, List.mem_map.mpr ⟨(1, 1 / 99), hmem, rfl⟩, ?_⟩
    show z_score |((lookupCount (valueCounts [0]) 1 : ℕ) : ℝ) / (([0] : List ℕ).length : ℝ)
        - 1 / 99| (1 / 99) 1 < 0
    have hc : lookupCount (valueCounts [0]) 1 = 0 := rfl
    rw [hc]
    unfold z_score
    apply div_neg_of_neg_of_pos
    · rw [show ((0 : ℕ) : ℝ) / (([0] : List ℕ).length : ℝ) - 1 / 99 = -(1 / 99) by norm_num,
        abs_neg, abs_of_nonneg (by norm_num)]
      norm_num
    · exact Real.sqrt_pos.mpr (by norm_num)

/-- Witness for C4: the Z-score formula instantiated at the second row of the
Last Two Digits table of the sample `[0]` with effective size 1. -/
theorem c4_z_score_witness :
    ((testRows (-2) [0] 1).getD 1 default).z =
      (|((testRows (-2) [0] 1).getD 1 default).found -
          ((testRows (-2) [0] 1).getD 1 default).expected| - 1 / (2 * ((1 : ℕ) : ℝ))) /
        Real.sqrt (((testRows (-2) [0] 1).getD 1 default).expected *
          (1 - ((testRows (-2) [0] 1).getD 1 default).expected) / ((1 : ℕ) : ℝ)) := by
  have hlen : 1 < (testRows (-2) [0] 1).length := by
    rw [testRows, testDF_neg_two]
    simp [lastTwoTable]
  have hmem : (testRows (-2) [0] 1).getD 1 default ∈ testRows (-2) [0] 1 := by
    rw [List.getD_eq_getElem _ _ hlen]
    exact List.getElem_mem hlen
  exact c4_z_score.1 (-2) [0] 1 _ hmem

/-- C10 — every digit-test result table has exactly one row per value of the
full digit domain of the test, listed in ascending domain order; the Counts
column of each row is the exact number of occurrences of its digit in the
feature column, so a digit never observed gets Counts 0, Found 0, and
`AbsDif = Expected`; in particular the number of rows (over which MAD, MSE,
chi-square and KS are computed) is the fixed domain size, independent of the
sample. -/
theorem c10_full_domain : ∀ t ∈ ([1, 2, 3, 22, -2] : List ℤ), ∀ (data : List ℕ) (N : ℕ),
    (testRows t data N).map TestRow.dig = (testDF t).map Prod.fst
    ∧ List.Sorted (· < ·) ((testRows t data N).map TestRow.dig)
    ∧ (testRows t data N).length = (testDF t).length
    ∧ (∀ row ∈ testRows t data N, row.counts = data.count row.dig
        ∧ (data.count row.dig = 0 → row.counts = 0 ∧ row.found = 0 ∧ row.absDif = row.expected)) := by
  intro t ht data N
  have hmapdig : (testRows t data N).map TestRow.dig = (testDF t).map Prod.fst := by
    rw [testRows, List.map_map]
    rfl
  refine ⟨hmapdig, ?_, by simp [testRows], ?_⟩
  · rw [hmapdig]
    exact map_fst_testDF t ht
  · intro row hrow
    obtain ⟨p, hp, rfl⟩ := List.mem_map.mp hrow
    have hcount : lookupCount (valueCounts data) p.1 = data.count p.1 :=
      lookupCount_eq_count data p.1
    refine ⟨hcount, ?_⟩
    intro hzero
    have hc0 : lookupCount (valueCounts data) p.1 = 0 := by rw [hcount, hzero]
    refine ⟨hc0, ?_, ?_⟩
    · show ((lookupCount (valueCounts data) p.1 : ℕ) : ℝ) / (data.length : ℝ) = 0
      rw [hc0]
      simp
    · show |((lookupCount (valueCounts data) p.1 : ℕ) : ℝ) / (data.length : ℝ) - p.2| = p.2
      rw [hc0]
      rw [show ((0 : ℕ) : ℝ) / (data.length : ℝ) - p.2 = -p.2 by simp]
      rw [abs_neg, abs_of_nonneg (testDF_expected_nonneg t ht p hp)]

/-- Witness for C10 at the concrete test `t = -2`, sample `[5]`, `N = 1`. -/
theorem c10_full_domain_witness :
    (testRows (-2) [5] 1).map TestRow.dig = (testDF (-2)).map Prod.fst
    ∧ List.Sorted (· < ·) ((testRows (-2) [5] 1).map TestRow.dig)
    ∧ (testRows (-2) [5] 1).length = (testDF (-2)).length
    ∧ (∀ row ∈ testRows (-2) [5] 1, row.counts = List.count row.dig [5]
        ∧ (List.count row.dig [5] = 0 →
            row.counts = 0 ∧ row.found = 0 ∧ row.absDif = row.expected)) :=
  c10_full_domain (-2) (by decide) [5] 1

/-! ## Rolling MAD (Roll_mad.__init__ lines 1007-1021, _prep_to_roll_ lines 1820-1851,
_mad_to_roll_ lines 1889-1899)

`Roll_mad` first calls `_prep_to_roll_(start, test)`, which assigns the
feature column in place on the prepared `Source` (the local re-binding
`start = start.loc[...]` does not affect the caller, so the rolling pass runs
over all prepared rows), and returns the `(Exp, ind)` tables of the chosen
test.  For the first-digits tests the column is
`start.ZN // 10 ** ((np.log10(start.ZN).astype(int)) - (test - 1))` and for
the Second Digit test `(start.ZN // 10 ** ((np.log10(start.ZN)).astype(int) - 1)) % 10`:
on an int64 column, numpy raises a ValueError (integers to negative integer
powers are not allowed) as soon as any row's exponent is negative, which
happens exactly when some `ZN` lies below the test's validity threshold
(`ZN = 0` gives `int(-inf)`, also negative).  The Last Two Digits column
`start.ZN % 100` involves no power and never raises.  `Roll_mad` then applies
`_mad_to_roll_` to every length-`window` contiguous subset of the feature
column (`rolling(window=window).apply(...)`) and drops the NaN entries of the
first `window - 1` positions, leaving one value per window position. -/

/-- The contiguous windows of size `w` of a sequence, one per rolling
position that yields a non-NaN output. -/
def rollingWindows {α : Type} (xs : List α) (w : ℕ) : List (List α) :=
  (List.range (xs.length + 1 - w)).map (fun i => (xs.drop i).take w)

/-- Embedding of `_mad_to_roll_(arr, Exp, ind)`: the mean over the digit
domain of the absolute difference between the window's relative frequency of
each digit (0 for digits absent from the window) and its expected
proportion. -/
noncomputable def madToRoll (arr : List ℕ) (expInd : List (ℝ × ℕ)) : ℝ :=
  ((expInd.map (fun p => |((arr.count p.2 : ℕ) : ℝ) / (arr.length : ℝ) - p.1|)).sum) /
    (expInd.length : ℝ)

/-- Whether the int64 power `10 ** (int(log10 z) - shift)` taken by
`_prep_to_roll_` succeeds on the row value `z`: numpy raises when the
exponent is negative, and `z = 0` gives `int(log10 0) = int(-inf)`, a hugely
negative exponent. -/
def powExpOK (shift z : ℕ) : Bool := decide (z ≠ 0 ∧ shift ≤ Nat.log 10 z)

/-- The digit-feature column assigned by `_prep_to_roll_` (the value it
computes when the power succeeds): first-N digits for tests 1, 2, 3, the
second digit for test 22, and `ZN % 100` otherwise. -/
def rollFeature (test : ℤ) (zns : List ℕ) : List ℕ :=
  if test = 1 ∨ test = 2 ∨ test = 3 then zns.map (fun z => firstDigitsOf test.toNat z)
  else if test = 22 then zns.map (fun z => firstDigitsOf 2 z % 10)
  else zns.map (fun z => z % 100)

/-- Embedding of the column assignment of `_prep_to_roll_` with its error
behaviour: for tests 1, 2, 3 and 22 the vectorized `10 ** exponent` raises
when any row's exponent is negative; the Last Two Digits branch always
succeeds. -/
def prepToRollFeature (test : ℤ) (zns : List ℕ) : Except BenfordError (List ℕ) :=
  if test = 1 ∨ test = 2 ∨ test = 3 then
    if zns.all (powExpOK (test.toNat - 1)) then .ok (rollFeature test zns)
    else .error .negIntPower
  else if test = 22 then
    if zns.all (powExpOK 1) then .ok (rollFeature test zns)
    else .error .negIntPower
  else .ok (rollFeature test zns)

/-- The `(Exp, ind)` tables returned by `_prep_to_roll_` for each test kind:
`np.arange(10^(test-1), 10^test)` with `np.log10(1 + 1/ind)` for the
first-digits tests, the grouped second-digit sums over 0..9 for test 22, and
the uniform `[1/99] * 100` over 0..99 otherwise. -/
noncomputable def rollExpInd : ℤ → List (ℝ × ℕ)
  | 1 => (firstDomain 1).map (fun d => (firstExp d, d))
  | 2 => (firstDomain 2).map (fun d => (firstExp d, d))
  | 3 => (firstDomain 3).map (fun d => (firstExp d, d))
  | 22 => (List.range 10).map (fun s => (secondExp s, s))
  | _ => (List.range 100).map (fun d => ((1 : ℝ) / 99, d))

/-- The rolling MAD values over the (successfully extracted) feature column. -/
noncomputable def rollOut (test : ℤ) (zns : List ℕ) (w : ℕ) : List ℝ :=
  (rollingWindows (rollFeature test zns) w).map (fun win => madToRoll win (rollExpInd test))

/-- Embedding of `Roll_mad.__init__` for a prepared `ZN` column: extraction
by `_prep_to_roll_` (which can raise), then one `_mad_to_roll_` value per
rolling window position. -/
noncomputable def rollMadSeries (test : ℤ) (zns : List ℕ) (w : ℕ) :
    Except BenfordError (List ℝ) :=
  (prepToRollFeature test zns).map (fun feature =>
    (rollingWindows feature w).map (fun win => madToRoll win (rollExpInd test)))

/-- The `ZN` threshold below which the extraction of `_prep_to_roll_` raises
for each test kind. -/
def rollThreshold : ℤ → ℕ
  | 1 => 1
  | 2 => 10
  | 3 => 100
  | 22 => 10
  | _ => 0

lemma powExpOK_iff (shift z : ℕ) : powExpOK shift z = true ↔ 10 ^ shift ≤ z := by
  unfold powExpOK
  rw [decide_eq_true_iff]
  constructor
  · rintro ⟨hz, hlog⟩
    exact (Nat.pow_le_iff_le_log (by norm_num) hz).mpr hlog
  · intro h
    have hpow : 0 < 10 ^ shift := by positivity
    have hz : z ≠ 0 := by omega
    exact ⟨hz, (Nat.pow_le_iff_le_log (by norm_num) hz).mp h⟩

lemma sum_le_length_of_le_one : ∀ l : List ℝ, (∀ x ∈ l, x ≤ 1) → l.sum ≤ (l.length : ℝ) := by
  intro l
  induction l with
  | nil => simp
  | cons a t ih =>
    intro h
    simp only [List.sum_cons, List.length_cons]
    push_cast
    have ha := h a (List.mem_cons_self a t)
    have ht := ih (fun x hx => h x (List.mem_cons_of_mem a hx))
    linarith

lemma sum_le_length_mul (c : ℝ) : ∀ l : List ℝ,
    (∀ x ∈ l, x ≤ c) → l.sum ≤ (l.length : ℝ) * c := by
  intro l
  induction l with
  | nil => simp
  | cons a t ih =>
    intro h
    simp only [List.sum_cons, List.length_cons]
    push_cast
    have ha := h a (List.mem_cons_self a t)
    have ht := ih (fun x hx => h x (List.mem_cons_of_mem a hx))
    have hring : ((t.length : ℝ) + 1) * c = (t.length : ℝ) * c + c := by ring
    rw [hring]
    linarith

lemma madToRoll_bounds (arr : List ℕ) (expInd : List (ℝ × ℕ))
    (harr : arr ≠ []) (hexp : expInd ≠ [])
    (hbnd : ∀ p ∈ expInd, 0 ≤ p.1 ∧ p.1 ≤ 1) :
    0 ≤ madToRoll arr expInd ∧ madToRoll arr expInd ≤ 1 := by
  have hlenpos : (0 : ℝ) < (arr.length : ℝ) := by
    have := List.length_pos.mpr harr
    exact_mod_cast this
  unfold madToRoll
  set f : ℝ × ℕ → ℝ := fun p => |((arr.count p.2 : ℕ) : ℝ) / (arr.length : ℝ) - p.1| with hf
  have hterm : ∀ x ∈ expInd.map f, 0 ≤ x ∧ x ≤ 1 := by
    intro x hx
    obtain ⟨p, hp, rfl⟩ := List.mem_map.mp hx
    obtain ⟨hp0, hp1⟩ := hbnd p hp
    rw [hf]
    have hfreq0 : (0 : ℝ) ≤ ((arr.count p.2 : ℕ) : ℝ) / (arr.length : ℝ) := by positivity
    have hfreq1 : ((arr.count p.2 : ℕ) : ℝ) / (arr.length : ℝ) ≤ 1 := by
      rw [div_le_one hlenpos]
      exact_mod_cast List.count_le_length p.2 arr
    exact ⟨abs_nonneg _, abs_sub_le_iff.mpr ⟨by linarith, by linarith⟩⟩
  have hkpos : (0 : ℝ) < (expInd.length : ℝ) := by
    have := List.length_pos.mpr hexp
    exact_mod_cast this
  have hsum0 : 0 ≤ (expInd.map f).sum :=
    List.sum_nonneg (fun x hx => (hterm x hx).1)
  have hsum1 : (expInd.map f).sum ≤ (expInd.length : ℝ) := by
    have h := sum_le_length_of_le_one (expInd.map f) (fun x hx => (hterm x hx).2)
    rwa [List.length_map] at h
  exact ⟨div_nonneg hsum0 (le_of_lt hkpos), (div_le_one hkpos).mpr hsum1⟩

lemma secondExp_nonneg (s : ℕ) : 0 ≤ secondExp s := by
  unfold secondExp
  apply List.sum_nonneg
  intro x hx
  simp only [List.mem_map, List.mem_range] at hx
  obtain ⟨k, _, rfl⟩ := hx
  apply Real.logb_nonneg (by norm_num)
  have : (0 : ℝ) ≤ 1 / ((10 * (k + 1) + s : ℕ) : ℝ) := by positivity
  linarith

lemma secondExp_le_one (s : ℕ) : secondExp s ≤ 1 := by
  unfold secondExp
  have hterm : ∀ x ∈ (List.range 9).map
      (fun k => Real.logb 10 (1 + 1 / ((10 * (k + 1) + s : ℕ) : ℝ))),
      x ≤ Real.logb 10 (11 / 10) := by
    intro x hx
    obtain ⟨k, _, rfl⟩ := List.mem_map.mp hx
    apply Real.logb_le_logb_of_le (by norm_num) (by positivity)
    have h10 : (10 : ℝ) ≤ ((10 * (k + 1) + s : ℕ) : ℝ) := by
      have : 10 ≤ 10 * (k + 1) + s := by omega
      exact_mod_cast this
    have hd := one_div_le_one_div_of_le (by norm_num : (0 : ℝ) < 10) h10
    linarith
  have hsum := sum_le_length_mul (Real.logb 10 (11 / 10)) _ hterm
  rw [List.length_map, List.length_range] at hsum
  have hp : (9 : ℝ) * Real.logb 10 (11 / 10) = Real.logb 10 ((11 / 10 : ℝ) ^ (9 : ℕ)) := by
    rw [Real.logb_pow]
    norm_num
  have hle : Real.logb 10 ((11 / 10 : ℝ) ^ (9 : ℕ)) ≤ Real.logb 10 10 := by
    apply Real.logb_le_logb_of_le (by norm_num) (by positivity)
    norm_num
  rw [Real.logb_self_eq_one (by norm_num)] at hle
  have h9 : (9 : ℝ) * Real.logb 10 (11 / 10) ≤ 1 := by rw [hp]; exact hle
  linarith

lemma rollExpInd_spec : ∀ t ∈ ([1, 2, 3, 22, -2] : List ℤ),
    rollExpInd t ≠ [] ∧ ∀ p ∈ rollExpInd t, 0 ≤ p.1 ∧ p.1 ≤ 1 := by
  have hfirst : ∀ digs : ℕ, 1 ≤ digs →
      ((firstDomain digs).map (fun d => (firstExp d, d)) ≠ [] ∧
        ∀ p ∈ (firstDomain digs).map (fun d => (firstExp d, d)), 0 ≤ p.1 ∧ p.1 ≤ 1) := by
    intro digs hd
    constructor
    · intro h0
      have hlen : ((firstDomain digs).map (fun d => (firstExp d, d))).length = 0 := by
        rw [h0]
        rfl
      rw [List.length_map, firstDomain, List.length_map, List.length_range] at hlen
      have hlt : 10 ^ (digs - 1) < 10 ^ digs := Nat.pow_lt_pow_right (by norm_num) (by omega)
      omega
    · rintro ⟨e, d⟩ hp
      simp only [List.mem_map, firstDomain, List.mem_range] at hp
      obtain ⟨d', ⟨i, hi, rfl⟩, hd'⟩ := hp
      obtain ⟨rfl, rfl⟩ := Prod.mk.injEq .. ▸ hd'
      have h1 : 1 ≤ 10 ^ (digs - 1) + i := by
        have h0 : 0 < 10 ^ (digs - 1) := by positivity
        omega
      exact ⟨firstExp_nonneg _, firstExp_le_one _ h1⟩
  intro t ht
  simp only [List.mem_cons, List.not_mem_nil, or_false] at ht
  rcases ht with rfl | rfl | rfl | rfl | rfl
  · exact hfirst 1 (by norm_num)
  · exact hfirst 2 (by norm_num)
  · exact hfirst 3 (by norm_num)
  · constructor
    · exact List.ne_nil_of_length_pos (by simp [rollExpInd])
    · rintro ⟨e, s⟩ hp
      simp only [rollExpInd, List.mem_map, List.mem_range] at hp
      obtain ⟨s', _, hs'⟩ := hp
      obtain ⟨rfl, rfl⟩ := Prod.mk.injEq .. ▸ hs'
      exact ⟨secondExp_nonneg s', secondExp_le_one s'⟩
  · constructor
    · exact List.ne_nil_of_length_pos (by simp [rollExpInd])
    · rintro ⟨e, d⟩ hp
      simp only [rollExpInd, List.mem_map, List.mem_range] at hp
      obtain ⟨d', _, hd'⟩ := hp
      obtain ⟨rfl, rfl⟩ := Prod.mk.injEq .. ▸ hd'
      norm_num

lemma rollFeature_length (test : ℤ) (zns : List ℕ) :
    (rollFeature test zns).length = zns.length := by
  unfold rollFeature
  split
  · simp
  · split <;> simp

lemma prepToRollFeature_guard_true (test : ℤ) (zns : List ℕ)
    (ht : test ∈ ([1, 2, 3, 22, -2] : List ℤ))
    (hall : ∀ z ∈ zns, rollThreshold test ≤ z) :
    prepToRollFeature test zns = .ok (rollFeature test zns) := by
  have hguard : ∀ s : ℕ, (∀ z ∈ zns, 10 ^ s ≤ z) → zns.all (powExpOK s) = true :=
    fun s h => List.all_eq_true.mpr (fun z hz => (powExpOK_iff s z).mpr (h z hz))
  simp only [List.mem_cons, List.not_mem_nil, or_false] at ht
  rcases ht with rfl | rfl | rfl | rfl | rfl
  · have hg : zns.all (powExpOK (Int.toNat 1 - 1)) = true :=
      hguard 0 (fun z hz => by simpa using hall z hz)
    unfold prepToRollFeature
    rw [if_pos (by norm_num), if_pos hg]
  · have hg : zns.all (powExpOK (Int.toNat 2 - 1)) = true :=
      hguard 1 (fun z hz => by simpa using hall z hz)
    unfold prepToRollFeature
    rw [if_pos (by norm_num), if_pos hg]
  · have hg : zns.all (powExpOK (Int.toNat 3 - 1)) = true :=
      hguard 2 (fun z hz => by simpa using hall z hz)
    unfold prepToRollFeature
    rw [if_pos (by norm_num), if_pos hg]
  · have hg : zns.all (powExpOK 1) = true :=
      hguard 1 (fun z hz => by simpa using hall z hz)
    unfold prepToRollFeature
    rw [if_neg (by norm_num), if_pos (by norm_num), if_pos hg]
  · unfold prepToRollFeature
    rw [if_neg (by norm_num), if_neg (by norm_num)]

lemma prepToRollFeature_guard_false (test : ℤ) (zns : List ℕ)
    (ht : test ∈ ([1, 2, 3, 22, -2] : List ℤ)) (hne2 : test ≠ -2)
    (hex : ∃ z ∈ zns, z < rollThreshold test) :
    prepToRollFeature test zns = .error .negIntPower := by
  obtain ⟨z0, hz0mem, hz0lt⟩ := hex
  have hbad : ∀ s : ℕ, 10 ^ s = rollThreshold test → zns.all (powExpOK s) = false := by
    intro s hs
    cases hbool : zns.all (powExpOK s) with
    | false => rfl
    | true =>
      have h0 := (powExpOK_iff s z0).mp (List.all_eq_true.mp hbool z0 hz0mem)
      rw [hs] at h0
      omega
  simp only [List.mem_cons, List.not_mem_nil, or_false] at ht
  rcases ht with rfl | rfl | rfl | rfl | rfl
  · have hb : zns.all (powExpOK (Int.toNat 1 - 1)) = false := hbad 0 rfl
    unfold prepToRollFeature
    rw [if_pos (by norm_num), if_neg (by rw [hb]; simp)]
  · have hb : zns.all (powExpOK (Int.toNat 2 - 1)) = false := hbad 1 rfl
    unfold prepToRollFeature
    rw [if_pos (by norm_num), if_neg (by rw [hb]; simp)]
  · have hb : zns.all (powExpOK (Int.toNat 3 - 1)) = false := hbad 2 rfl
    unfold prepToRollFeature
    rw [if_pos (by norm_num), if_neg (by rw [hb]; simp)]
  · have hb : zns.all (powExpOK 1) = false := hbad 1 rfl
    unfold prepToRollFeature
    rw [if_neg (by norm_num), if_pos (by norm_num), if_neg (by rw [hb]; simp)]
  · exact absurd rfl hne2

/-- Counterexample to C9: the First Two Digits rolling MAD on the prepared
sequence with normalized magnitudes `[5, 12, 34]` (length 3) and window 2
does not return `3 - 2 + 1` values: the extraction computes
`10 ** (int(log10 5) - 1) = 10 ** (-1)` on an int64 column and numpy raises,
so no values at all are returned. -/
theorem c9_rolling_mad_counterexample :
    2 ≤ ([5, 12, 34] : List ℕ).length
    ∧ rollMadSeries 2 [5, 12, 34] 2 = .error .negIntPower := by
  refine ⟨by norm_num, ?_⟩
  have hprep : prepToRollFeature 2 [5, 12, 34] = .error .negIntPower :=
    prepToRollFeature_guard_false 2 [5, 12, 34] (by decide) (by decide)
      ⟨5, by decide, by
        show 5 < rollThreshold 2
        norm_num [rollThreshold]⟩
  unfold rollMadSeries
  rw [hprep]
  rfl

/-- C9 amended — for every test kind and every prepared `ZN` column of length
`L` all of whose magnitudes are at or above the test's validity threshold
(1, 10, 100 for F1D, F2D, F3D, 10 for SD, none for L2D), and every window
size `1 ≤ w ≤ L`, the rolling MAD returns exactly `L - w + 1` values, each in
[0, 1]; but when some magnitude lies below the threshold of a
F1D/F2D/F3D/SD rolling test, the extraction raises on a negative integer
power and no values are returned. -/
theorem c9_rolling_mad_amended : ∀ test ∈ ([1, 2, 3, 22, -2] : List ℤ),
    ∀ (zns : List ℕ) (w : ℕ), 1 ≤ w → w ≤ zns.length →
    ((∀ z ∈ zns, rollThreshold test ≤ z) →
      rollMadSeries test zns w = .ok (rollOut test zns w)
      ∧ (rollOut test zns w).length = zns.length - w + 1
      ∧ (∀ m ∈ rollOut test zns w, 0 ≤ m ∧ m ≤ 1))
    ∧ (test ≠ -2 → (∃ z ∈ zns, z < rollThreshold test) →
      rollMadSeries test zns w = .error .negIntPower) := by
  intro test ht zns w hw hwL
  obtain ⟨hne_exp, hbnd_exp⟩ := rollExpInd_spec test ht
  have hfeatlen := rollFeature_length test zns
  have hlen : (rollOut test zns w).length = zns.length - w + 1 := by
    unfold rollOut rollingWindows
    simp only [List.length_map, List.length_range, hfeatlen]
    omega
  have hbounds : ∀ m ∈ rollOut test zns w, 0 ≤ m ∧ m ≤ 1 := by
    intro m hm
    obtain ⟨win, hwin, rfl⟩ := List.mem_map.mp hm
    simp only [rollingWindows, List.mem_map, List.mem_range, hfeatlen] at hwin
    obtain ⟨i, hi, rfl⟩ := hwin
    have hwinlen : (((rollFeature test zns).drop i).take w).length = w := by
      rw [List.length_take, List.length_drop, hfeatlen]
      omega
    have hne : ((rollFeature test zns).drop i).take w ≠ [] := by
      intro h0
      rw [h0] at hwinlen
      simp at hwinlen
      omega
    exact madToRoll_bounds _ _ hne hne_exp hbnd_exp
  constructor
  · intro hall
    have hok := prepToRollFeature_guard_true test zns ht hall
    have hser : rollMadSeries test zns w = .ok (rollOut test zns w) := by
      unfold rollMadSeries rollOut
      rw [hok]
      rfl
    exact ⟨hser, hlen, hbounds⟩
  · intro hne2 hex
    have herr := prepToRollFeature_guard_false test zns ht hne2 hex
    unfold rollMadSeries
    rw [herr]
    rfl

/-- Witness for the amended C9: the Last Two Digits rolling MAD on the
prepared magnitudes `[5, 12]` with window 1 succeeds with `2 - 1 + 1` bounded
values, while the Second Digit rolling test on `[5, 12, 34]` raises because
`ZN = 5` lies below its threshold 10. -/
theorem c9_rolling_mad_amended_witness :
    (rollMadSeries (-2) [5, 12] 1 = .ok (rollOut (-2) [5, 12] 1)
      ∧ (rollOut (-2) [5, 12] 1).length = ([5, 12] : List ℕ).length - 1 + 1
      ∧ (∀ m ∈ rollOut (-2) [5, 12] 1, 0 ≤ m ∧ m ≤ 1))
    ∧ rollMadSeries 22 [5, 12, 34] 2 = .error .negIntPower := by
  constructor
  · exact (c9_rolling_mad_amended (-2) (by decide) [5, 12] 1 (by norm_num) (by norm_num)).1
      (fun z hz => Nat.zero_le z)
  · refine (c9_rolling_mad_amended 22 (by decide) [5, 12, 34] 2 (by norm_num) (by norm_num)).2
      (by decide) ⟨5, by decide, ?_⟩
    show 5 < rollThreshold 22
    norm_num [rollThreshold]

end Benford
